import Mathlib

/-!
Verification of the FMM2D repository (2-D fast multipole method).

The definitions below are a shallow embedding of the C++ sources:
  src/src/Util.cc      (setbit, getbit, interleave, uninterleave)
  src/src/Box.cc       (Box, addToC/addToD/addToDtilde, parent/children/
                        neighbors/interaction-list index arithmetic, getCenter)
  src/src/Potential.cc (getSCoeff, getSS, getRVector, direct)
  src/src/FmmTree.cc   (constructor asserts, initStruct, solve evaluation
                        phase, solveDirect)
  src/src/Point.cc     (getBoxIndex)

C++ `int` values that are always non-negative in the modelled code paths are
embedded as `Nat`; signed neighbour offsets use `Int`.  `double` scalars are
embedded as `ℝ`, `std::complex<double>` as `ℂ`, and the exact dyadic cell
geometry as `ℚ`.
-/

namespace FMM2D

/-! ## Util.cc -/

/-- Util::setbit: if setto == 1 return n | (1 << pos) else n & ~(1 << pos).
For non-negative ints the masked and-complement is the ideal clear-bit,
which is Nat.ldiff with the single-bit mask. -/
def setbit (n pos setto : Nat) : Nat :=
  if setto = 1 then n ||| (1 <<< pos) else Nat.ldiff n (1 <<< pos)

/-- Util::getbit: returns 1 if (n & (1 << pos)) != 0 and 0 otherwise. -/
def getbit (n pos : Nat) : Nat :=
  if n &&& (1 <<< pos) ≠ 0 then 1 else 0

/-- The loop body of Util::interleave, as structural recursion on the counter
k = level - i - 1 (the C++ loop runs i = 0 .. level-1, i.e. k descends from
level-1 to 0, writing bit k of x at position 2k+1 and bit k of y at 2k). -/
def interleaveAux (x y : Nat) : Nat → Nat → Nat
  | acc, 0 => acc
  | acc, k+1 =>
      interleaveAux x y (setbit (setbit acc (2*k+1) (getbit x k)) (2*k) (getbit y k)) k

/-- Util::interleave, including the special case (0,0) → 0. -/
def interleave (x y level : Nat) : Nat :=
  if x = 0 ∧ y = 0 then 0 else interleaveAux x y 0 level

/-- The xInt accumulator loop of Util::uninterleave: bit k of the result is
bit 2k+1 of n (counter k descends from L-1 to 0, matching the C++ loop). -/
def uninterleaveXAux (n : Nat) : Nat → Nat → Nat
  | acc, 0 => acc
  | acc, k+1 => uninterleaveXAux n (setbit acc k (getbit n (2*k+1))) k

/-- The yInt accumulator loop of Util::uninterleave: bit k of the result is
bit 2k of n. -/
def uninterleaveYAux (n : Nat) : Nat → Nat → Nat
  | acc, 0 => acc
  | acc, k+1 => uninterleaveYAux n (setbit acc k (getbit n (2*k))) k

/-- Util::uninterleave; the returned complex number carries the two
non-negative integer grid coordinates, embedded here as a pair. -/
def uninterleave (n L : Nat) : Nat × Nat :=
  if n = 0 then (0, 0) else (uninterleaveXAux n 0 L, uninterleaveYAux n 0 L)

/-! ## Box.cc: index arithmetic -/

/-- Box::getParentIndex: index >> 2. -/
def getParentIndex (index : Nat) : Nat := index >>> 2

/-- Box::getChildrenIndex and Box::getChildrenIndexOfBox both push
(index << 2) + i for i = 0,1,2,3. -/
def getChildrenIndex (index : Nat) : List Nat :=
  [0, 1, 2, 3].map (fun i => (index <<< 2) + i)

/-- The (i,j) pairs visited by the nested loops of Box::getNeighborsIndex,
in loop order (i outer, j inner, each over -1,0,1). -/
def neighborOffsets : List (Int × Int) :=
  [(-1,-1), (-1,0), (-1,1), (0,-1), (0,0), (0,1), (1,-1), (1,0), (1,1)]

/-- Box::getNeighborsIndex: recover the grid coordinates of the cell by
uninterleave, keep the offsets with (i!=0||j!=0) whose shifted coordinates
stay inside [0, 2^level), and interleave each kept coordinate pair. -/
def getNeighborsIndex (level index : Nat) : List Nat :=
  (neighborOffsets.filter (fun ij =>
    (decide (ij.1 ≠ 0) || decide (ij.2 ≠ 0)) &&
    decide (0 ≤ ((uninterleave index level).1 : Int) + ij.1) &&
    decide (((uninterleave index level).1 : Int) + ij.1 < (2:Int)^level) &&
    decide (0 ≤ ((uninterleave index level).2 : Int) + ij.2) &&
    decide (((uninterleave index level).2 : Int) + ij.2 < (2:Int)^level))).map
    (fun ij => interleave (((uninterleave index level).1 : Int) + ij.1).toNat
                          (((uninterleave index level).2 : Int) + ij.2).toNat level)

/-- Box::getParentsNeighborsIndex: the same 8-neighbour scan run at
level - 1 on the parent index (index >> 2). -/
def getParentsNeighborsIndex (level index : Nat) : List Nat :=
  getNeighborsIndex (level - 1) (index >>> 2)

/-- Box::getNeighborsE4Index: children of the parent's neighbours, with the
cell's own neighbours removed (the flag_not_in_list filter). -/
def getNeighborsE4Index (level index : Nat) : List Nat :=
  ((getParentsNeighborsIndex level index).flatMap
      (fun q => getChildrenIndex q)).filter
    (fun cidx => !((getNeighborsIndex level index).contains cidx))

/-- Box::getSize: pow(2.0, -level); the value is the exact dyadic (1/2)^level. -/
def getSize (level : Nat) : ℚ := (1/2 : ℚ)^level

/-- Box::getCenter: uninterleave the index, add (0.5, 0.5), and scale by
getSize; exact in ℚ. -/
def getCenter (level index : Nat) : ℚ × ℚ :=
  ((((uninterleave index level).1 : ℚ) + 1/2) * getSize level,
   (((uninterleave index level).2 : ℚ) + 1/2) * getSize level)

/-! ## Point.cc -/

/-- Point::getBoxIndex: interleave(floor(x * 2^level), floor(y * 2^level),
level); coordinates are embedded as exact rationals. -/
def getBoxIndex (px py : ℚ) (level : Nat) : Nat :=
  interleave (Int.toNat ⌊px * 2^level⌋) (Int.toNat ⌊py * 2^level⌋) level

/-! ## Box.cc: the Box container -/

/-- Box: level, index, truncation order p, the three coefficient vectors and
the contained source (x) and target (y) points (points as complex values). -/
structure Box where
  level : Nat
  index : Nat
  p : Nat
  c : List ℂ
  dtilde : List ℂ
  d : List ℂ
  x : List ℂ
  y : List ℂ

/-- Box.h: int DEFAULT_P = 12. -/
def DEFAULT_P : Nat := 12

/-- Box.h: int DEFAULT_LEVEL = 3. -/
def DEFAULT_LEVEL : Nat := 3

/-- Box.h: int DEFAULT_INDEX = 0. -/
def DEFAULT_INDEX : Nat := 0

/-- Box::Box(int level, int index, int p): the member initializers build
c(p+1), dtilde(p+1), d(p+1) — vectors of p+1 value-initialized (zero)
entries; the constructor body re-zeroes the first p of them. -/
def mkBox (level index p : Nat) : Box :=
  { level := level, index := index, p := p,
    c := List.replicate (p+1) 0,
    dtilde := List.replicate (p+1) 0,
    d := List.replicate (p+1) 0,
    x := [], y := [] }

/-- Box::Box(): same with the defaults (p = DEFAULT_P = 12, arrays of 13). -/
def defaultBox : Box := mkBox DEFAULT_LEVEL DEFAULT_INDEX DEFAULT_P

/-- Box::setP: assigns the p field only; the coefficient vectors keep their
construction-time length. -/
def Box.setP (b : Box) (p : Nat) : Box := { b with p := p }

/-- Box::setLevel. -/
def Box.setLevel (b : Box) (i : Nat) : Box := { b with level := i }

/-- Box::setIndex. -/
def Box.setIndex (b : Box) (i : Nat) : Box := { b with index := i }

/-- A cell as produced by FmmTree::initStruct: vector resize default-creates
Box() and then setLevel, setIndex, setP(potential.getP()) are applied. -/
def initStructBox (level index p : Nat) : Box :=
  ((defaultBox.setLevel level).setIndex index).setP p

/-- Box::addToC: for i = 0 .. c.size()-1, c[i] = c[i] + increment[i].  The
C++ read increment[i] is unchecked; the getD default 0 stands in for the
out-of-bounds read when increment is shorter than c. -/
def Box.addToC (b : Box) (increment : List ℂ) : Box :=
  { b with
    c := (List.range b.c.length).map (fun i => b.c.getD i 0 + increment.getD i 0) }

/-- Box::addToDtilde: same loop over dtilde. -/
def Box.addToDtilde (b : Box) (increment : List ℂ) : Box :=
  { b with
    dtilde := (List.range b.dtilde.length).map (fun i => b.dtilde.getD i 0 + increment.getD i 0) }

/-- Box::addToD: same loop over d. -/
def Box.addToD (b : Box) (increment : List ℂ) : Box :=
  { b with
    d := (List.range b.d.length).map (fun i => b.d.getD i 0 + increment.getD i 0) }

/-- The memory-safety condition for Box::addToC's loop: every index the loop
reads from increment (0 .. c.size()-1) is within increment's bounds. -/
def addToCReadsInBounds (b : Box) (increment : List ℂ) : Prop :=
  b.c.length ≤ increment.length

/-! ## Potential.cc -/

/-- Potential::getSCoeff: a vector of p coefficients, ans[0] = 1 and
ans[i] = -1 * (xi - xstar)^i / i for 1 <= i < p.  (For p = 0 the C++ write
ans[0] is out of bounds; the model returns the empty list.) -/
noncomputable def getSCoeff (p : Nat) (xi xstar : ℂ) : List ℂ :=
  (List.range p).map (fun (i : Nat) =>
    if i = 0 then 1 else -((xi - xstar)^i) / ((i : ℕ) : ℂ))

/-- Column 0 of the Potential::getSS matrix: ss[0][0] = 1 (diagonal),
ss[1][0] = t, ss[i][0] = ss[i-1][0] * (i-1) * (-1) / i for i >= 2. -/
noncomputable def ssCol0 (t : ℂ) : Nat → ℂ
  | 0 => 1
  | 1 => t
  | (i+2) => ssCol0 t (i+1) * ((i+1 : Nat) : ℂ) * (-1) / ((i+2 : Nat) : ℂ)

/-- The lower-triangular recursion of Potential::getSS read from the
diagonal leftwards: entry (i, i-dd).  dd = 0 is the diagonal 1;
ss[i][j] = (-1) * ss[i][j+1] * (j / (i-j)) with j = i-(dd+1). -/
noncomputable def ssDiagBack (i : Nat) : Nat → ℂ
  | 0 => 1
  | (dd+1) => (-1) * ssDiagBack i dd * ((i - (dd+1) : Nat) : ℂ) / ((dd+1 : Nat) : ℂ)

/-- Entry (i, j) of the p x p S|S translation matrix of Potential::getSS:
zero above the diagonal, ssCol0 in column 0, otherwise the diagonal-seeded
row recursion. -/
noncomputable def ssEntry (t : ℂ) (i j : Nat) : ℂ :=
  if i < j then 0
  else if j = 0 then ssCol0 t i
  else ssDiagBack i (i - j)

/-- Potential::getSS: t = to - from; ans(p) with
ans[i] = sum over j < p of sCoeff[j] * ss[i][j]. -/
noncomputable def getSS (p : Nat) (zfrom zto : ℂ) (sCoeff : List ℂ) : List ℂ :=
  (List.range p).map (fun i =>
    ((List.range p).map (fun j => sCoeff.getD j 0 * ssEntry (zto - zfrom) i j)).sum)

/-- Potential::getRVector: rVec[i] = (y - xstar)^i for i < p. -/
noncomputable def getRVector (p : Nat) (y xstar : ℂ) : List ℂ :=
  (List.range p).map (fun (i : Nat) => (y - xstar)^i)

/-- Potential::direct: log(yj - xi) (principal branch of the complex log). -/
noncomputable def direct (yj xi : ℂ) : ℂ := Complex.log (yj - xi)

/-! ## FmmTree.cc -/

/-- std::numeric_limits<double>::epsilon() = 2^-52. -/
noncomputable def machineEps : ℝ := 1 / 2^52

/-- The coincidence test of FmmTree::solve (lines 374-378):
abs(thisYCoord - thisXCoord) <= epsilon * max(1.0, max(abs(thisXCoord),
abs(thisYCoord))). -/
def solveSkip (y x : ℂ) : Prop :=
  Complex.abs (y - x) ≤ machineEps * max 1 (max (Complex.abs x) (Complex.abs y))

/-- The coincidence test of FmmTree::solveDirect (lines 584-588):
abs(y[j] - x[i]) <= epsilon * max(1.0, max(abs(y[j]), abs(x[i]))). -/
def solveDirectSkip (y x : ℂ) : Prop :=
  Complex.abs (y - x) ≤ machineEps * max 1 (max (Complex.abs y) (Complex.abs x))

open Classical in
/-- The contribution of one (target y, source x) pair to sinPart in
FmmTree::solve: nothing in the coincidence branch, otherwise
(direct(y,x) * u).real(). -/
noncomputable def solveNearTerm (u : ℝ) (y x : ℂ) : ℝ :=
  if solveSkip y x then 0 else (direct y x * (u : ℂ)).re

open Classical in
/-- The contribution of one pair to v[j] in FmmTree::solveDirect: nothing in
the coincidence branch, otherwise (u[i] * direct(y,x)).real(). -/
noncomputable def solveDirectTerm (u : ℝ) (y x : ℂ) : ℝ :=
  if solveDirectSkip y x then 0 else ((u : ℂ) * direct y x).re

/-- The validation the FmmTree(int, vector<Point>&, vector<Point>&,
Potential&) constructor performs on its inputs: assert(level > 0) and
assert(level <= 8).  Neither the truncation order p nor any charge-count
comparison appears in any assert or branch of the constructor (the charge
vector is first touched inside solve/upwardPass). -/
def fmmTreeCtorAborts (level p : Int) (numSources numCharges : Nat) : Bool :=
  !(decide (0 < level) && decide (level ≤ 8))

/-- The precondition-violation predicate asserted by the specification:
p <= 0, or L outside [1,8], or mismatched point/charge counts. -/
def specPreconditionViolation (p level : Int) (numSources numCharges : Nat) : Prop :=
  p ≤ 0 ∨ level < 1 ∨ 8 < level ∨ numSources ≠ numCharges

/-! ## FmmTree.cc: the evaluation phase of solve (after downwardPass2) -/

open Classical in
/-- FmmTree::getIndex: the position of the first point of z equal to q, or
none (the C++ returns -1, which the callers use unchecked). -/
noncomputable def getIndexFn (z : List ℂ) (q : ℂ) : Option Nat :=
  z.findIdx? (fun w => decide (w = q))

/-- The center of a box as a complex value (Box::getCenter().getCoord()). -/
noncomputable def getCenterC (level index : Nat) : ℂ :=
  { re := ((getCenter level index).1 : ℝ), im := ((getCenter level index).2 : ℝ) }

/-- u[getIndex(x, thisX)] in solve; the C++ indexes with -1 (undefined
behaviour) when the point is absent, modelled as charge 0. -/
noncomputable def chargeOf (xs : List ℂ) (u : List ℝ) (sx : ℂ) : ℝ :=
  match getIndexFn xs sx with
  | some i => u.getD i 0
  | none => 0

/-- regPart of the evaluation loop: sum over k < d.size() of
(d[k] * rVec[k]).real(), with rVec = getRVector(y, boxCenter).  (rVec has
p entries while d has 13; the unchecked C++ read rVec[k] for k >= p is
modelled by getD's 0 default.) -/
noncomputable def regPartF (pp : Nat) (b : Box) (ty : ℂ) : ℝ :=
  ((List.range b.d.length).map (fun k =>
    (b.d.getD k 0 * (getRVector pp ty (getCenterC b.level b.index)).getD k 0).re)).sum

/-- sinPart of the evaluation loop: over the box's neighbours plus the box
itself, over each contained source, the solveNearTerm contribution. -/
noncomputable def sinPartF (boxes : List Box) (xs : List ℂ) (u : List ℝ)
    (b : Box) (ty : ℂ) : ℝ :=
  ((getNeighborsIndex b.level b.index ++ [b.index]).map (fun idx =>
    (((boxes.getD idx defaultBox).x).map (fun sx =>
      solveNearTerm (chargeOf xs u sx) ty sx)).sum)).sum

/-- The state the evaluation phase acts on: the finest-level cells and the
output vector v. -/
structure EvalState where
  boxes : List Box
  v : List ℝ

/-- One target update: v[getIndex(y, thisY)] = sinPart + regPart; every
other component of the state is untouched. -/
noncomputable def evalTargetStep (pp : Nat) (xs ys : List ℂ) (u : List ℝ)
    (b : Box) (s : EvalState) (ty : ℂ) : EvalState :=
  { s with v := match getIndexFn ys ty with
      | some i => s.v.set i (sinPartF s.boxes xs u b ty + regPartF pp b ty)
      | none => s.v }

/-- The per-box loop of the evaluation phase (the yPoints.size() > 0 guard
is a no-op for an empty list). -/
noncomputable def evalBoxStep (pp : Nat) (xs ys : List ℂ) (u : List ℝ)
    (s : EvalState) (b : Box) : EvalState :=
  b.y.foldl (evalTargetStep pp xs ys u b) s

/-- The whole evaluation phase: the loop over the finest-level cells at the
end of FmmTree::solve, run after downwardPass2 has returned. -/
noncomputable def evalPhase (pp : Nat) (xs ys : List ℂ) (u : List ℝ)
    (s : EvalState) : EvalState :=
  s.boxes.foldl (evalBoxStep pp xs ys u) s

theorem getbit_eq_testBit (n pos : Nat) :
    getbit n pos = if n.testBit pos then 1 else 0 := by
  unfold getbit
  by_cases h : n.testBit pos
  · have hnz : n &&& (1 <<< pos) ≠ 0 := by
      intro hz
      have hb : (n &&& (1 <<< pos)).testBit pos = false := by simp [hz]
      rw [Nat.testBit_land, Nat.one_shiftLeft, Nat.testBit_two_pow_self, h] at hb
      simp at hb
    simp [hnz, h]
  · have hz : n &&& (1 <<< pos) = 0 := by
      apply Nat.zero_of_testBit_eq_false
      intro i
      rw [Nat.testBit_land, Nat.one_shiftLeft, Nat.testBit_two_pow]
      by_cases hpi : pos = i
      · subst hpi
        simp [Bool.eq_false_iff.mpr h]
      · simp [hpi]
    simp [hz, h]

theorem decide_getbit_eq_one (n pos : Nat) :
    decide (getbit n pos = 1) = n.testBit pos := by
  rw [getbit_eq_testBit]
  by_cases h : n.testBit pos <;> simp [h]

theorem testBit_setbit (n pos b j : Nat) :
    (setbit n pos b).testBit j =
      if j = pos then decide (b = 1) else n.testBit j := by
  unfold setbit
  by_cases hb : b = 1
  · subst hb
    rw [if_pos rfl, Nat.testBit_lor, Nat.one_shiftLeft, Nat.testBit_two_pow]
    by_cases hj : j = pos
    · subst hj; simp
    · have hpj : pos ≠ j := fun hq => hj hq.symm
      simp [hj, hpj]
  · rw [if_neg hb, Nat.testBit_ldiff, Nat.one_shiftLeft, Nat.testBit_two_pow]
    by_cases hj : j = pos
    · subst hj; simp [hb]
    · have hpj : pos ≠ j := fun hq => hj hq.symm
      simp [hj, hpj]

theorem interleaveAux_testBit (x y : Nat) :
    ∀ (K acc j : Nat),
      (interleaveAux x y acc K).testBit j =
        if j < 2*K then
          (if j % 2 = 1 then x.testBit (j/2) else y.testBit (j/2))
        else acc.testBit j := by
  intro K
  induction K with
  | zero => intro acc j; simp [interleaveAux]
  | succ k ih =>
      intro acc j
      rw [interleaveAux, ih]
      rcases Nat.lt_or_ge j (2*k) with hj | hj
      · rw [if_pos hj, if_pos (show j < 2*(k+1) by omega)]
      · rw [if_neg (show ¬ j < 2*k by omega), testBit_setbit, testBit_setbit]
        by_cases hj2 : j = 2*k
        · subst hj2
          rw [if_pos rfl, decide_getbit_eq_one,
            if_pos (show 2*k < 2*(k+1) by omega),
            if_neg (show ¬ (2*k) % 2 = 1 by omega)]
          congr 1
          omega
        · by_cases hj3 : j = 2*k+1
          · subst hj3
            rw [if_neg hj2, if_pos rfl, decide_getbit_eq_one,
              if_pos (show 2*k+1 < 2*(k+1) by omega),
              if_pos (show (2*k+1) % 2 = 1 by omega)]
            congr 1
            omega
          · rw [if_neg hj2, if_neg hj3, if_neg (show ¬ j < 2*(k+1) by omega)]

theorem interleave_testBit (x y L j : Nat) :
    (interleave x y L).testBit j =
      if j < 2*L then
        (if j % 2 = 1 then x.testBit (j/2) else y.testBit (j/2))
      else false := by
  unfold interleave
  by_cases h : x = 0 ∧ y = 0
  · obtain ⟨hx, hy⟩ := h
    subst hx; subst hy
    simp
  · rw [if_neg h, interleaveAux_testBit]
    rcases Nat.lt_or_ge j (2*L) with hj | hj
    · rw [if_pos hj, if_pos hj]
    · rw [if_neg (show ¬ j < 2*L by omega), if_neg (show ¬ j < 2*L by omega)]
      simp

theorem uninterleaveXAux_testBit (n : Nat) :
    ∀ (K acc j : Nat),
      (uninterleaveXAux n acc K).testBit j =
        if j < K then n.testBit (2*j+1) else acc.testBit j := by
  intro K
  induction K with
  | zero => intro acc j; simp [uninterleaveXAux]
  | succ k ih =>
      intro acc j
      rw [uninterleaveXAux, ih]
      rcases Nat.lt_or_ge j k with hj | hj
      · rw [if_pos hj, if_pos (show j < k+1 by omega)]
      · rw [if_neg (show ¬ j < k by omega), testBit_setbit]
        by_cases hj2 : j = k
        · subst hj2
          rw [if_pos rfl, decide_getbit_eq_one, if_pos (show j < j+1 by omega)]
        · rw [if_neg hj2, if_neg (show ¬ j < k+1 by omega)]

theorem uninterleaveYAux_testBit (n : Nat) :
    ∀ (K acc j : Nat),
      (uninterleaveYAux n acc K).testBit j =
        if j < K then n.testBit (2*j) else acc.testBit j := by
  intro K
  induction K with
  | zero => intro acc j; simp [uninterleaveYAux]
  | succ k ih =>
      intro acc j
      rw [uninterleaveYAux, ih]
      rcases Nat.lt_or_ge j k with hj | hj
      · rw [if_pos hj, if_pos (show j < k+1 by omega)]
      · rw [if_neg (show ¬ j < k by omega), testBit_setbit]
        by_cases hj2 : j = k
        · subst hj2
          rw [if_pos rfl, decide_getbit_eq_one, if_pos (show j < j+1 by omega)]
        · rw [if_neg hj2, if_neg (show ¬ j < k+1 by omega)]

theorem uninterleave_fst_testBit (n L j : Nat) :
    (uninterleave n L).1.testBit j =
      if j < L then n.testBit (2*j+1) else false := by
  unfold uninterleave
  by_cases h : n = 0
  · subst h; simp
  · rw [if_neg h]
    show (uninterleaveXAux n 0 L).testBit j = _
    rw [uninterleaveXAux_testBit]
    rcases Nat.lt_or_ge j L with hj | hj
    · rw [if_pos hj, if_pos hj]
    · rw [if_neg (show ¬ j < L by omega), if_neg (show ¬ j < L by omega)]
      simp

theorem uninterleave_snd_testBit (n L j : Nat) :
    (uninterleave n L).2.testBit j =
      if j < L then n.testBit (2*j) else false := by
  unfold uninterleave
  by_cases h : n = 0
  · subst h; simp
  · rw [if_neg h]
    show (uninterleaveYAux n 0 L).testBit j = _
    rw [uninterleaveYAux_testBit]
    rcases Nat.lt_or_ge j L with hj | hj
    · rw [if_pos hj, if_pos hj]
    · rw [if_neg (show ¬ j < L by omega), if_neg (show ¬ j < L by omega)]
      simp

theorem lt_two_pow_of_high_bits_false {m k : Nat}
    (h : ∀ j, k ≤ j → m.testBit j = false) : m < 2^k := by
  by_contra hc
  obtain ⟨i, hik, hbit⟩ := Nat.ge_two_pow_implies_high_bit_true (Nat.le_of_not_lt hc)
  rw [h i hik] at hbit
  exact Bool.false_ne_true hbit

theorem four_pow_eq (L : Nat) : (4:Nat)^L = 2^(2*L) := by
  rw [show (4:Nat) = 2^2 from rfl, ← pow_mul]

theorem interleave_lt (x y L : Nat) : interleave x y L < 4^L := by
  rw [four_pow_eq]
  apply lt_two_pow_of_high_bits_false
  intro j hj
  rw [interleave_testBit, if_neg (show ¬ j < 2*L by omega)]

theorem uninterleave_fst_lt (n L : Nat) : (uninterleave n L).1 < 2^L := by
  apply lt_two_pow_of_high_bits_false
  intro j hj
  rw [uninterleave_fst_testBit, if_neg (show ¬ j < L by omega)]

theorem uninterleave_snd_lt (n L : Nat) : (uninterleave n L).2 < 2^L := by
  apply lt_two_pow_of_high_bits_false
  intro j hj
  rw [uninterleave_snd_testBit, if_neg (show ¬ j < L by omega)]

theorem uninterleave_interleave (x y L : Nat) (hx : x < 2^L) (hy : y < 2^L) :
    uninterleave (interleave x y L) L = (x, y) := by
  have hfst : (uninterleave (interleave x y L) L).1 = x := by
    apply Nat.eq_of_testBit_eq
    intro j
    rw [uninterleave_fst_testBit]
    rcases Nat.lt_or_ge j L with hj | hj
    · rw [if_pos hj, interleave_testBit, if_pos (show 2*j+1 < 2*L by omega),
        if_pos (show (2*j+1) % 2 = 1 by omega)]
      congr 1
      omega
    · rw [if_neg (show ¬ j < L by omega)]
      exact (Nat.testBit_lt_two_pow
        (Nat.lt_of_lt_of_le hx (Nat.pow_le_pow_right (by omega) hj))).symm
  have hsnd : (uninterleave (interleave x y L) L).2 = y := by
    apply Nat.eq_of_testBit_eq
    intro j
    rw [uninterleave_snd_testBit]
    rcases Nat.lt_or_ge j L with hj | hj
    · rw [if_pos hj, interleave_testBit, if_pos (show 2*j < 2*L by omega),
        if_neg (show ¬ (2*j) % 2 = 1 by omega)]
      congr 1
      omega
    · rw [if_neg (show ¬ j < L by omega)]
      exact (Nat.testBit_lt_two_pow
        (Nat.lt_of_lt_of_le hy (Nat.pow_le_pow_right (by omega) hj))).symm
  exact Prod.ext hfst hsnd

theorem interleave_uninterleave (n L : Nat) (hn : n < 4^L) :
    interleave (uninterleave n L).1 (uninterleave n L).2 L = n := by
  rw [four_pow_eq] at hn
  apply Nat.eq_of_testBit_eq
  intro j
  rw [interleave_testBit]
  rcases Nat.lt_or_ge j (2*L) with hj | hj
  · rw [if_pos hj]
    by_cases hpar : j % 2 = 1
    · rw [if_pos hpar, uninterleave_fst_testBit, if_pos (show j/2 < L by omega)]
      congr 1
      omega
    · rw [if_neg hpar, uninterleave_snd_testBit, if_pos (show j/2 < L by omega)]
      congr 1
      omega
  · rw [if_neg (show ¬ j < 2*L by omega)]
    exact (Nat.testBit_lt_two_pow
      (Nat.lt_of_lt_of_le hn (Nat.pow_le_pow_right (by omega) hj))).symm

theorem interleave_inj {x1 y1 x2 y2 L : Nat}
    (hx1 : x1 < 2^L) (hy1 : y1 < 2^L) (hx2 : x2 < 2^L) (hy2 : y2 < 2^L)
    (h : interleave x1 y1 L = interleave x2 y2 L) : x1 = x2 ∧ y1 = y2 := by
  have h1 := uninterleave_interleave x1 y1 L hx1 hy1
  have h2 := uninterleave_interleave x2 y2 L hx2 hy2
  rw [h, h2] at h1
  exact ⟨(Prod.mk.injEq _ _ _ _ ▸ h1).1.symm, (Prod.mk.injEq _ _ _ _ ▸ h1).2.symm⟩

theorem uninterleave_inj {m n L : Nat} (hm : m < 4^L) (hn : n < 4^L)
    (h : uninterleave m L = uninterleave n L) : m = n := by
  have h1 := interleave_uninterleave m L hm
  have h2 := interleave_uninterleave n L hn
  rw [h] at h1
  rw [h1] at h2
  exact h2

theorem interleave_mod (x y L : Nat) :
    interleave x y L = interleave (x % 2^L) (y % 2^L) L := by
  apply Nat.eq_of_testBit_eq
  intro j
  rw [interleave_testBit, interleave_testBit]
  rcases Nat.lt_or_ge j (2*L) with hj | hj
  · rw [if_pos hj, if_pos hj]
    by_cases hpar : j % 2 = 1
    · rw [if_pos hpar, if_pos hpar, Nat.testBit_mod_two_pow,
        decide_eq_true (show j/2 < L by omega), Bool.true_and]
    · rw [if_neg hpar, if_neg hpar, Nat.testBit_mod_two_pow,
        decide_eq_true (show j/2 < L by omega), Bool.true_and]
  · rw [if_neg (show ¬ j < 2*L by omega), if_neg (show ¬ j < 2*L by omega)]

/-! ## Helper lemmas about list access -/

theorem getD_map_range {α : Type} (f : Nat → α) (p i : Nat) (d : α) :
    ((List.range p).map f).getD i d = if i < p then f i else d := by
  by_cases h : i < p
  · rw [if_pos h, List.getD_eq_getElem?_getD, List.getElem?_map,
      List.getElem?_range h]
    rfl
  · rw [if_neg h, List.getD_eq_getElem?_getD, List.getElem?_map]
    rw [List.getElem?_eq_none (by simpa using Nat.le_of_not_lt h)]
    rfl

/-! ## Claim theorems -/

/-- Claim C1, counterexample: a Box constructed with truncation order p = 12
has coefficient arrays of 13 entries, not 12 as the claim states. -/
theorem claim_C1_counterexample :
    (mkBox 3 0 12).c.length ≠ 12 ∧ (mkBox 3 0 12).c.length = 13 ∧
    (mkBox 3 0 12).dtilde.length = 13 ∧ (mkBox 3 0 12).d.length = 13 := by
  refine ⟨?_, ?_, ?_, ?_⟩ <;> simp [mkBox]

/-- Claim C1, amended: every cell's three coefficient arrays have exactly
p + 1 entries each (indices 0..p), where p is the order the cell was
constructed with, and this size is preserved by addToC, addToDtilde, addToD
and by setP (which changes only the p field, so the tree's
default-constructed cells keep DEFAULT_P + 1 = 13 entries). -/
theorem claim_C1_amended (level index p q : Nat) (inc : List ℂ) (b : Box) :
    ((mkBox level index p).c.length = p + 1 ∧
     (mkBox level index p).dtilde.length = p + 1 ∧
     (mkBox level index p).d.length = p + 1) ∧
    ((b.addToC inc).c.length = b.c.length ∧
     (b.addToC inc).dtilde = b.dtilde ∧ (b.addToC inc).d = b.d) ∧
    ((b.addToDtilde inc).dtilde.length = b.dtilde.length ∧
     (b.addToDtilde inc).c = b.c ∧ (b.addToDtilde inc).d = b.d) ∧
    ((b.addToD inc).d.length = b.d.length ∧
     (b.addToD inc).c = b.c ∧ (b.addToD inc).dtilde = b.dtilde) ∧
    ((b.setP q).c = b.c ∧ (b.setP q).dtilde = b.dtilde ∧ (b.setP q).d = b.d) := by
  refine ⟨⟨?_, ?_, ?_⟩, ⟨?_, rfl, rfl⟩, ⟨?_, rfl, rfl⟩, ⟨?_, rfl, rfl⟩, rfl, rfl, rfl⟩ <;>
    simp [mkBox, Box.addToC, Box.addToDtilde, Box.addToD]

/-- Claim C2 is violated by the code: a tree cell (built by initStruct with
the run of Main.cc: p = 5) has c.size() = DEFAULT_P + 1 = 13, while the
increment produced by getSCoeff has only p entries, so Box::addToC's loop
over all c.size() indices reads past the end of the increment; the claimed
length inequality fails for every p (getSCoeff yields p entries, a cell
constructed with order p has p + 1). -/
theorem claim_C2_bug :
    (initStructBox 3 0 5).c.length = 13 ∧
    (getSCoeff 5 0 0).length = 5 ∧
    ¬ addToCReadsInBounds (initStructBox 3 0 5) (getSCoeff 5 0 0) ∧
    (∀ (p level index : Nat) (xi xstar : ℂ),
      (getSCoeff p xi xstar).length = p ∧
      ¬ addToCReadsInBounds (mkBox level index p) (getSCoeff p xi xstar)) ∧
    (∀ (p : Nat) (zfrom zto : ℂ) (sc : List ℂ), (getSS p zfrom zto sc).length = p) := by
  refine ⟨?_, ?_, ?_, fun p level index xi xstar => ⟨?_, ?_⟩,
      fun p zfrom zto sc => ?_⟩ <;>
    simp [initStructBox, defaultBox, mkBox, Box.setP, Box.setLevel, Box.setIndex,
      getSCoeff, getSS, addToCReadsInBounds, DEFAULT_P]

/-- Claim C4, counterexample: truncation order p = 0 with 2 source points
and 1 charge is a precondition violation in the sense of the claim, but the
FmmTree constructor (whose only checks are assert(level>0) and
assert(level<=8)) does not abort on it. -/
theorem claim_C4_counterexample :
    specPreconditionViolation 0 3 2 1 ∧ fmmTreeCtorAborts 3 0 2 1 = false := by
  constructor
  · left
    norm_num
  · rfl

/-- Claim C4, amended: building the tree aborts exactly when the refinement
depth is outside [1,8]; the truncation order and the charge/point counts are
not validated anywhere in the constructor, so those invalid inputs do not
fail fast. -/
theorem claim_C4_amended (level p : Int) (numSources numCharges : Nat) :
    fmmTreeCtorAborts level p numSources numCharges = true ↔
      (level ≤ 0 ∨ 8 < level) := by
  unfold fmmTreeCtorAborts
  by_cases h : 0 < level <;> by_cases h2 : level ≤ 8 <;>
    simp [h, h2] <;> omega

/-- Claim C6: for every L in [1,8] and every address n < 4^L, interleaving
the grid coordinates returned by uninterleave(n, L) yields n again. -/
theorem claim_C6 (L n : Nat) (h1 : 1 ≤ L) (hL : L ≤ 8) (hn : n < 4^L) :
    interleave (uninterleave n L).1 (uninterleave n L).2 L = n :=
  interleave_uninterleave n L hn

/-- Witness for claim C6 at L = 3, n = 46. -/
theorem claim_C6_witness :
    1 ≤ 3 ∧ 3 ≤ 8 ∧ 46 < 4^3 ∧
    interleave (uninterleave 46 3).1 (uninterleave 46 3).2 3 = 46 :=
  ⟨by norm_num, by norm_num, by norm_num,
   claim_C6 3 46 (by norm_num) (by norm_num) (by norm_num)⟩

/-- Every member of getChildrenIndex n is (n << 2) + i with i < 4; its
parent index is n and it is below 4n + 4. -/
theorem mem_children_elim {n cidx : Nat} (hm : cidx ∈ getChildrenIndex n) :
    getParentIndex cidx = n ∧ cidx < 4*n + 4 := by
  simp only [getChildrenIndex, List.mem_map, List.mem_cons, List.mem_singleton] at hm
  obtain ⟨i, hi, rfl⟩ := hm
  have hi4 : i < 4 := by
    rcases hi with h | h | h | h | h
    · omega
    · omega
    · omega
    · omega
    · simp at h
  unfold getParentIndex
  rw [Nat.shiftLeft_eq, Nat.shiftRight_eq_div_pow,
    show (2:Nat)^2 = 4 from rfl]
  omega

/-- Claim C7: every child address in {(n<<2)+0..3} has parent address
exactly n under getParentIndex (c >> 2). -/
theorem claim_C7 (n cidx : Nat) (hm : cidx ∈ getChildrenIndex n) :
    getParentIndex cidx = n :=
  (mem_children_elim hm).1

/-- Witness for claim C7 at n = 9, child 36. -/
theorem claim_C7_witness : 36 ∈ getChildrenIndex 9 ∧ getParentIndex 36 = 9 :=
  ⟨by decide, claim_C7 9 36 (by decide)⟩

/-- Claim C8: getSCoeff returns exactly p coefficients with b[0] = 1 and
b[m] = -(xi - xstar)^m / m for 1 <= m < p. -/
theorem claim_C8 (p m : Nat) (xi xstar : ℂ) (hp : 1 ≤ p) (hm1 : 1 ≤ m)
    (hm : m < p) :
    (getSCoeff p xi xstar).length = p ∧
    (getSCoeff p xi xstar).getD 0 0 = 1 ∧
    (getSCoeff p xi xstar).getD m 0 = -((xi - xstar)^m) / ((m : ℕ) : ℂ) := by
  unfold getSCoeff
  refine ⟨by simp, ?_, ?_⟩
  · rw [getD_map_range, if_pos (by omega)]
    simp
  · rw [getD_map_range, if_pos hm, if_neg (by omega)]

/-- Witness for claim C8 at p = 2, m = 1, xi = xstar = 0. -/
theorem claim_C8_witness :
    1 ≤ 2 ∧ 1 ≤ 1 ∧ 1 < 2 ∧
    ((getSCoeff 2 0 0).length = 2 ∧
     (getSCoeff 2 0 0).getD 0 0 = 1 ∧
     (getSCoeff 2 0 0).getD 1 0 = -(((0:ℂ) - 0)^1) / (((1:Nat) : ℕ) : ℂ)) :=
  ⟨by norm_num, le_refl 1, by norm_num,
   claim_C8 2 1 0 0 (by norm_num) (le_refl 1) (by norm_num)⟩

open Classical in
/-- Claim C3: the evaluation phase of solve and solveDirect apply the
identical coincidence rule (the operand order of the inner max is the only
textual difference), and in both a pair contributes exactly nothing when
the rule holds and the direct-kernel term otherwise. -/
theorem claim_C3 (u : ℝ) (y x : ℂ) :
    (solveSkip y x ↔ solveDirectSkip y x) ∧
    solveNearTerm u y x = solveDirectTerm u y x ∧
    solveNearTerm u y x =
      (if solveSkip y x then 0 else (direct y x * (u : ℂ)).re) ∧
    solveDirectTerm u y x =
      (if solveDirectSkip y x then 0 else ((u : ℂ) * direct y x).re) := by
  have hiff : solveSkip y x ↔ solveDirectSkip y x := by
    unfold solveSkip solveDirectSkip
    rw [max_comm (Complex.abs x) (Complex.abs y)]
  refine ⟨hiff, ?_, rfl, rfl⟩
  unfold solveNearTerm solveDirectTerm
  by_cases h : solveSkip y x
  · rw [if_pos h, if_pos (hiff.mp h)]
  · rw [if_neg h, if_neg (fun hc => h (hiff.mpr hc)), mul_comm]

/-- Inner fold of the evaluation phase does not change the cells. -/
theorem foldl_evalTargetStep_boxes (pp : Nat) (xs ys : List ℂ) (u : List ℝ)
    (b : Box) : ∀ (l : List ℂ) (s : EvalState),
    (l.foldl (evalTargetStep pp xs ys u b) s).boxes = s.boxes := by
  intro l
  induction l with
  | nil => intro s; rfl
  | cons hd tl ih =>
      intro s
      rw [List.foldl_cons, ih]
      rfl

/-- Outer fold of the evaluation phase does not change the cells. -/
theorem foldl_evalBoxStep_boxes (pp : Nat) (xs ys : List ℂ) (u : List ℝ) :
    ∀ (l : List Box) (s : EvalState),
    (l.foldl (evalBoxStep pp xs ys u) s).boxes = s.boxes := by
  intro l
  induction l with
  | nil => intro s; rfl
  | cons hd tl ih =>
      intro s
      rw [List.foldl_cons, ih, evalBoxStep, foldl_evalTargetStep_boxes]

/-- Claim C9: the evaluation phase of solve leaves every cell untouched; in
particular each cell's C, Dtilde, and D arrays are identical before and
after evaluation (only the v component of the state changes). -/
theorem claim_C9 (pp : Nat) (xs ys : List ℂ) (u : List ℝ) (s : EvalState) :
    (evalPhase pp xs ys u s).boxes = s.boxes ∧
    (evalPhase pp xs ys u s).boxes.map Box.c = s.boxes.map Box.c ∧
    (evalPhase pp xs ys u s).boxes.map Box.dtilde = s.boxes.map Box.dtilde ∧
    (evalPhase pp xs ys u s).boxes.map Box.d = s.boxes.map Box.d := by
  have h : (evalPhase pp xs ys u s).boxes = s.boxes :=
    foldl_evalBoxStep_boxes pp xs ys u s.boxes s
  exact ⟨h, by rw [h], by rw [h], by rw [h]⟩

/-- Claim C10: interleave depends only on the low `level` bits of each grid
coordinate and lands in [0, 4^level); in particular a point with x = 1.0
(grid coordinate 2^level) receives the same in-range leaf address as x = 0. -/
theorem claim_C10 (level gx gy : Nat) (py : ℚ) (h1 : 1 ≤ level)
    (hL : level ≤ 8) :
    interleave gx gy level = interleave (gx % 2^level) (gy % 2^level) level ∧
    interleave gx gy level < 4^level ∧
    getBoxIndex 1 py level = getBoxIndex 0 py level ∧
    getBoxIndex 1 py level < 4^level := by
  refine ⟨interleave_mod gx gy level, interleave_lt gx gy level, ?_,
    interleave_lt _ _ _⟩
  unfold getBoxIndex
  have hone : Int.toNat ⌊(1:ℚ) * 2^level⌋ = 2^level := by
    rw [one_mul, show ((2:ℚ)^level) = ((2^level : ℕ) : ℚ) by push_cast; ring,
      Int.floor_natCast, Int.toNat_natCast]
  have hzero : Int.toNat ⌊(0:ℚ) * 2^level⌋ = 0 := by norm_num
  rw [hone, hzero, interleave_mod (2^level), interleave_mod 0,
    Nat.mod_self, Nat.zero_mod]

/-- Witness for claim C10 at level = 1, gx = 5, gy = 2, py = 1/2. -/
theorem claim_C10_witness :
    1 ≤ 1 ∧ 1 ≤ 8 ∧
    (interleave 5 2 1 = interleave (5 % 2^1) (2 % 2^1) 1 ∧
     interleave 5 2 1 < 4^1 ∧
     getBoxIndex 1 (1/2) 1 = getBoxIndex 0 (1/2) 1 ∧
     getBoxIndex 1 (1/2) 1 < 4^1) :=
  ⟨le_refl 1, by norm_num, claim_C10 1 5 2 (1/2) (le_refl 1) (by norm_num)⟩

/-- Unpacks membership in getNeighborsIndex: the neighbour is the
interleave of the cell's grid coordinates shifted by a non-zero offset that
stays inside [0, 2^lvl). -/
theorem exists_offsets_of_mem_neighbors {lvl idx m : Nat}
    (h : m ∈ getNeighborsIndex lvl idx) :
    ∃ dx dy : Int, (dx ≠ 0 ∨ dy ≠ 0) ∧
      0 ≤ ((uninterleave idx lvl).1 : Int) + dx ∧
      ((uninterleave idx lvl).1 : Int) + dx < (2:Int)^lvl ∧
      0 ≤ ((uninterleave idx lvl).2 : Int) + dy ∧
      ((uninterleave idx lvl).2 : Int) + dy < (2:Int)^lvl ∧
      m = interleave (((uninterleave idx lvl).1 : Int) + dx).toNat
                     (((uninterleave idx lvl).2 : Int) + dy).toNat lvl := by
  unfold getNeighborsIndex at h
  rw [List.mem_map] at h
  obtain ⟨ij, hij, hm⟩ := h
  rw [List.mem_filter] at hij
  obtain ⟨hoff, hcond⟩ := hij
  simp only [Bool.and_eq_true, Bool.or_eq_true, decide_eq_true_eq] at hcond
  obtain ⟨⟨⟨⟨hne, h1⟩, h2⟩, h3⟩, h4⟩ := hcond
  exact ⟨ij.1, ij.2, hne, h1, h2, h3, h4, hm.symm⟩

/-- Unpacks membership in the interaction list: the member is a child of a
parent's neighbour, and it is not a neighbour of the cell itself. -/
theorem exists_of_mem_E4 {level n m : Nat}
    (h : m ∈ getNeighborsE4Index level n) :
    (∃ q ∈ getParentsNeighborsIndex level n, m ∈ getChildrenIndex q) ∧
      m ∉ getNeighborsIndex level n := by
  unfold getNeighborsE4Index at h
  rw [List.mem_filter] at h
  obtain ⟨hmem, hflag⟩ := h
  refine ⟨?_, ?_⟩
  · rw [List.mem_flatMap] at hmem
    obtain ⟨q, hq, hc⟩ := hmem
    exact ⟨q, hq, hc⟩
  · intro hcontra
    simp [List.contains, hcontra] at hflag

/-- A parent's neighbour is never the parent itself. -/
theorem parentsNeighbor_ne_parent {level n q : Nat} (h1 : 1 ≤ level)
    (hn : n < 4^level) (hq : q ∈ getParentsNeighborsIndex level n) :
    q ≠ n >>> 2 := by
  intro hEq
  unfold getParentsNeighborsIndex at hq
  obtain ⟨dx, dy, hne, h0x, hxlt, h0y, hylt, hqeq⟩ :=
    exists_offsets_of_mem_neighbors hq
  have hP : (n >>> 2) < 4^(level-1) := by
    rw [Nat.shiftRight_eq_div_pow, show (2:Nat)^2 = 4 from rfl]
    have h4 : 4^(level-1) * 4 = 4^level := by
      rw [← pow_succ]
      congr 1
      omega
    rw [Nat.div_lt_iff_lt_mul (by norm_num : 0 < 4)]
    omega
  have hround := interleave_uninterleave (n >>> 2) (level-1) hP
  have hpx := uninterleave_fst_lt (n >>> 2) (level-1)
  have hpy := uninterleave_snd_lt (n >>> 2) (level-1)
  have hcast : ((2:Int))^(level-1) = ((2^(level-1) : Nat) : Int) := by
    push_cast
    ring
  rw [hcast] at hxlt hylt
  have hA : (((uninterleave (n >>> 2) (level-1)).1 : Int) + dx).toNat
      < 2^(level-1) := by omega
  have hB : (((uninterleave (n >>> 2) (level-1)).2 : Int) + dy).toNat
      < 2^(level-1) := by omega
  rw [hEq] at hqeq
  have hinter := hround.trans hqeq
  obtain ⟨hax, hby⟩ := interleave_inj hpx hpy hA hB hinter
  rcases hne with hdx | hdy
  · apply hdx
    omega
  · apply hdy
    omega

/-- Distinct valid addresses at one level have distinct cell centers. -/
theorem center_inj {level m n : Nat} (hm : m < 4^level) (hn : n < 4^level)
    (h : getCenter level m = getCenter level n) : m = n := by
  unfold getCenter at h
  have hs : getSize level ≠ 0 := by
    unfold getSize
    exact pow_ne_zero _ (by norm_num)
  have h1 : ((uninterleave m level).1 : ℚ) + 1/2
      = ((uninterleave n level).1 : ℚ) + 1/2 :=
    mul_right_cancel₀ hs (congrArg Prod.fst h)
  have h2 : ((uninterleave m level).2 : ℚ) + 1/2
      = ((uninterleave n level).2 : ℚ) + 1/2 :=
    mul_right_cancel₀ hs (congrArg Prod.snd h)
  have hfst : (uninterleave m level).1 = (uninterleave n level).1 := by
    have h3 := add_right_cancel h1
    exact_mod_cast h3
  have hsnd : (uninterleave m level).2 = (uninterleave n level).2 := by
    have h3 := add_right_cancel h2
    exact_mod_cast h3
  exact uninterleave_inj hm hn (Prod.ext hfst hsnd)

/-- Interaction-list members are valid addresses of their level. -/
theorem mem_E4_lt {level n m : Nat} (h1 : 1 ≤ level)
    (h : m ∈ getNeighborsE4Index level n) : m < 4^level := by
  obtain ⟨⟨q, hq, hchild⟩, -⟩ := exists_of_mem_E4 h
  unfold getParentsNeighborsIndex at hq
  obtain ⟨dx, dy, -, -, -, -, -, hqeq⟩ := exists_offsets_of_mem_neighbors hq
  have hqlt : q < 4^(level-1) := by
    rw [hqeq]
    exact interleave_lt _ _ _
  have hm4 : m < 4*q + 4 := (mem_children_elim hchild).2
  have h4 : 4^(level-1) * 4 = 4^level := by
    rw [← pow_succ]
    congr 1
    omega
  omega

/-- Claim C5: for level >= 2 the interaction list of a cell contains neither
the cell itself nor any of its neighbours, and every member's center
differs from the cell's center, so the far-to-near translation vector
t = to - from of downwardPass1 is never zero. -/
theorem claim_C5 (level n : Nat) (h2 : 2 ≤ level) (hL : level ≤ 8)
    (hn : n < 4^level) :
    n ∉ getNeighborsE4Index level n ∧
    (∀ m ∈ getNeighborsIndex level n, m ∉ getNeighborsE4Index level n) ∧
    (∀ m ∈ getNeighborsE4Index level n, getCenter level m ≠ getCenter level n) := by
  have hnotSelf : n ∉ getNeighborsE4Index level n := by
    intro h
    obtain ⟨⟨q, hq, hchild⟩, -⟩ := exists_of_mem_E4 h
    have hpar : getParentIndex n = q := (mem_children_elim hchild).1
    have hne : q ≠ n >>> 2 := parentsNeighbor_ne_parent (by omega) hn hq
    apply hne
    rw [← hpar]
    rfl
  refine ⟨hnotSelf, ?_, ?_⟩
  · intro m hm hmem
    obtain ⟨-, hnot⟩ := exists_of_mem_E4 hmem
    exact hnot hm
  · intro m hmem hcenter
    have hmlt : m < 4^level := mem_E4_lt (by omega) hmem
    have hmn : m = n := center_inj hmlt hn hcenter
    rw [hmn] at hmem
    exact hnotSelf hmem

/-- Witness for claim C5 at level = 2, n = 0. -/
theorem claim_C5_witness :
    2 ≤ 2 ∧ 2 ≤ 8 ∧ 0 < 4^2 ∧
    (0 ∉ getNeighborsE4Index 2 0 ∧
     (∀ m ∈ getNeighborsIndex 2 0, m ∉ getNeighborsE4Index 2 0) ∧
     (∀ m ∈ getNeighborsE4Index 2 0, getCenter 2 m ≠ getCenter 2 0)) :=
  ⟨le_refl 2, by norm_num, by norm_num,
   claim_C5 2 0 (le_refl 2) (by norm_num) (by norm_num)⟩

end FMM2D
